import Mathlib

/-!
Verification of the push-up analysis core (rep segmentation + scoring engine).

Shallow embedding conventions:
* Angle values are rationals (`ℚ`).  Where the Python code must cope with
  non-finite floats (the DTW comparison inputs, loaded reference libraries)
  values are wrapped in `AngleVal`, whose `nonfin` constructor models a
  NaN produced by a dropped pose frame; everywhere else the pipeline only
  ever sees finite values (the segmenter repairs non-finite entries before
  any rep is produced), so plain `ℚ` is used and the repair branch of
  `segment_reps` is vacuous.
* Python `int(x)` (truncation toward zero) is `pyTrunc`, Python `round`
  (banker's rounding, half to even) is `pyRound`, Python `//` on
  non-negative ints is `Nat` division.
* Python dicts (the golden library) are association lists in insertion
  order; dict keys are unique, which proofs assume via a `Nodup`
  hypothesis where it matters.
-/

/-- Python `int(q)`: truncation toward zero. -/
def pyTrunc (q : ℚ) : ℤ := if 0 ≤ q then ⌊q⌋ else ⌈q⌉

/-- Python `round(q)`: round half to even (banker's rounding). -/
def pyRound (q : ℚ) : ℤ :=
  if q - ⌊q⌋ < 1/2 then ⌊q⌋
  else if 1/2 < q - ⌊q⌋ then ⌊q⌋ + 1
  else if ⌊q⌋ % 2 = 0 then ⌊q⌋ else ⌊q⌋ + 1

/-- A float angle value: either a finite value or a non-finite one
(NaN from a dropped pose frame; the code only ever tests non-finiteness
via `isfinite`, under which NaN and infinities behave identically on the
paths modelled here). -/
inductive AngleVal : Type
  | fin : ℚ → AngleVal
  | nonfin : AngleVal
deriving DecidableEq

/-- `np.isfinite` on one value. -/
def AngleVal.isFinite : AngleVal → Bool
  | .fin _ => true
  | .nonfin => false

/-- Underlying rational of a finite value (junk 0 on `nonfin`; only used
under an all-finite guard). -/
def AngleVal.toRat : AngleVal → ℚ
  | .fin q => q
  | .nonfin => 0

/-- `PENALTY_DISTANCE` from `dtw_engine.py`. -/
def PENALTY_DISTANCE : ℚ := 9999

/-- `DTW_MAX_DIST_DEGREES` from `dtw_engine.py`. -/
def DTW_MAX_DIST_DEGREES : ℚ := 20

/-- `DTW_MAX_ACCEPTABLE_DISTANCE` from `api/server.py` (the value the API
server passes to `evaluate_against_library`). -/
def DTW_MAX_ACCEPTABLE_DISTANCE : ℚ := 1

/-- Minimum of two optional (cost, path length) pairs, by cost, keeping
the first argument on ties. -/
def optMin : Option (ℚ × ℕ) → Option (ℚ × ℕ) → Option (ℚ × ℕ)
  | none, o => o
  | some p, none => some p
  | some p, some q => if q.1 < p.1 then some q else some p

/-- Modelled from the spec: the repository computes its shape distance
with the external `fastdtw` pip library (not part of this repository's
sources).  Spec §4.2 describes it as the minimum-cost elastic alignment
(dynamic time warping) with per-step Euclidean cost in absolute angle
space, returning the total alignment cost together with the alignment
path; this is exact DTW over two sequences, returning
`some (total cost, path length)` of a minimum-cost warping path (`none`
when exactly one sequence is empty).  Which optimal path is returned when
several tie is unspecified by the spec; a fixed deterministic tie-break
is used. -/
def dtwGo : List ℚ → List ℚ → Option (ℚ × ℕ)
  | [], [] => some (0, 0)
  | [], _ :: _ => none
  | _ :: _, [] => none
  | a :: as, b :: bs =>
    let d := |a - b|
    match optMin (optMin (dtwGo as (b :: bs)) (dtwGo (a :: as) bs)) (dtwGo as bs) with
    | none => none
    | some (c, l) => some (d + c, l + 1)
termination_by xs ys => xs.length + ys.length
decreasing_by all_goals simp_arith

/-- `calculate_dtw_distance` from `dtw_engine.py`: path-normalised DTW
distance in raw degrees, or `PENALTY_DISTANCE` when either input is empty
or contains a non-finite value. -/
def calculate_dtw_distance (user_angles golden_angles : List AngleVal) : ℚ :=
  if user_angles.isEmpty ∨ golden_angles.isEmpty then PENALTY_DISTANCE
  else if user_angles.all AngleVal.isFinite ∧ golden_angles.all AngleVal.isFinite then
    match dtwGo (user_angles.map AngleVal.toRat) (golden_angles.map AngleVal.toRat) with
    | some (c, l) => c / (l : ℚ)
    | none => PENALTY_DISTANCE
  else PENALTY_DISTANCE

/-- `calculate_form_score` from `dtw_engine.py`: map a DTW distance to a
0–100 score. -/
def calculate_form_score (dtw_distance : ℚ)
    (max_acceptable_distance : ℚ := DTW_MAX_DIST_DEGREES) : ℤ :=
  if max_acceptable_distance ≤ 0 then 0
  else if dtw_distance ≤ 0 then 100
  else max 0 (min 100 (pyTrunc (100 * (1 - dtw_distance / max_acceptable_distance))))

/-- `score_rep_heuristic` from `dtw_engine.py`: absolute biomechanical
scoring of one rep (depth 50 pts, lockout 30 pts, range of motion 20 pts),
with the error labels appended in the code's order. -/
def score_rep_heuristic (rep_elbow_angles : List ℚ) : ℤ × List String :=
  match rep_elbow_angles with
  | [] => (0, ["no angle data"])
  | a :: rest =>
    let min_angle := rest.foldl min a
    let max_angle := rest.foldl max a
    let arc := max_angle - min_angle
    let depthPts : ℚ :=
      if min_angle ≤ 90 then 50
      else if min_angle ≥ 140 then 0
      else 50 * (1 - (min_angle - 90) / (140 - 90))
    let depthErrs : List String :=
      if min_angle ≤ 90 then []
      else if min_angle ≥ 140 then ["insufficient depth"]
      else if 1 - (min_angle - 90) / (140 - 90) < 1/2 then ["insufficient depth"] else []
    let lockPts : ℚ :=
      if max_angle ≥ 160 then 30
      else if max_angle ≤ 130 then 0
      else 30 * ((max_angle - 130) / (160 - 130))
    let lockErrs : List String :=
      if max_angle ≥ 160 then []
      else if max_angle ≤ 130 then ["incomplete lockout"]
      else if (max_angle - 130) / (160 - 130) < 1/2 then ["incomplete lockout"] else []
    let arcPts : ℚ :=
      if arc ≥ 70 then 20
      else if arc ≤ 20 then 0
      else 20 * ((arc - 20) / (70 - 20))
    let arcErrs : List String :=
      if arc ≥ 70 then []
      else if arc ≤ 20 then ["very limited range of motion"] else []
    (max 0 (min 100 (pyTrunc (depthPts + lockPts + arcPts))),
      depthErrs ++ lockErrs ++ arcErrs)

/-- `score_rep_blended` from `dtw_engine.py`: 50 % DTW shape score against
the given reference + 50 % heuristic score. -/
def score_rep_blended (user_rep_angles : List ℚ) (golden_angles : List AngleVal) :
    ℤ × List String :=
  let dtw_dist := calculate_dtw_distance (user_rep_angles.map AngleVal.fin) golden_angles
  let dtw_score := calculate_form_score dtw_dist
  let h := score_rep_heuristic user_rep_angles
  (max 0 (min 100 (pyRound ((1/2 : ℚ) * dtw_score + (1/2 : ℚ) * h.1))), h.2)

/-- One update of the running best: `dist < best_distance` replaces the
best (the `none` accumulator is the initial infinite distance, which any
computed distance beats). -/
def accumBest : Option (String × ℚ) → String → ℚ → Option (String × ℚ)
  | none, nm, d => some (nm, d)
  | some (bn, bd), nm, d => if d < bd then some (nm, d) else some (bn, bd)

/-- The reference-scanning loop of `evaluate_against_library`: walk the
library in order, skip entries whose series is empty, and keep the
first-seen strict minimum of the DTW distance.  The accumulator `none`
models the initial `("no_reference", inf)` pair. -/
def findBest (user : List ℚ) : List (String × List AngleVal) →
    Option (String × ℚ) → Option (String × ℚ)
  | [], best => best
  | (nm, r) :: rest, best =>
    if r.isEmpty then findBest user rest best
    else findBest user rest
      (accumBest best nm (calculate_dtw_distance (user.map AngleVal.fin) r))

/-- `golden_library[name]`: dict lookup, modelled as first match in the
association list. -/
def lookupRef (lib : List (String × List AngleVal)) (nm : String) : List AngleVal :=
  ((lib.find? (fun p => p.1 == nm)).map Prod.snd).getD []

/-- The tail of `evaluate_against_library` after the scan: the `none`
accumulator is the still-infinite distance (the only way
`isfinite(best_distance)` can be false), and `best_name == "no_reference"`
triggers the same heuristic fallback. -/
def finishEval (user : List ℚ) (lib : List (String × List AngleVal)) :
    Option (String × ℚ) → String × ℚ × ℤ
  | none => ("no_reference", PENALTY_DISTANCE, (score_rep_heuristic user).1)
  | some (bn, bd) =>
    if bn = "no_reference" then
      ("no_reference", PENALTY_DISTANCE, (score_rep_heuristic user).1)
    else
      (bn, bd, (score_rep_blended user (lookupRef lib bn)).1)

/-- `evaluate_against_library` from `dtw_engine.py`.  The user rep is a
plain rational series (the pipeline always passes segmenter output, which
is finite by construction); library series may contain non-finite values.
`max_acceptable_distance` is part of the signature but never read by the
body, exactly as in the source. -/
def evaluate_against_library (user_rep_angles : List ℚ)
    (golden_library : List (String × List AngleVal))
    (max_acceptable_distance : ℚ := DTW_MAX_DIST_DEGREES) : String × ℚ × ℤ :=
  if user_rep_angles.isEmpty then ("no_reference", PENALTY_DISTANCE, 0)
  else if golden_library.isEmpty then
    ("heuristic", 0, (score_rep_heuristic user_rep_angles).1)
  else
    finishEval user_rep_angles golden_library
      (findBest user_rep_angles golden_library none)

/-- Python `min(list)` over the per-rep scores (non-empty in the pipeline;
junk head default 0 on `[]`). -/
def listMinInt (l : List ℤ) : ℤ := l.foldl min (l.headD 0)

/-- The set-level aggregation from `run_analysis_pipeline` in
`api/server.py`: `round(mean * 0.7 + worst * 0.3)` over the per-rep
scores. -/
def aggregate_scores (all_scores : List ℤ) : ℤ :=
  let mean_score : ℚ := (all_scores.sum : ℚ) / (all_scores.length : ℚ)
  let worst_score : ℤ := listMinInt all_scores
  pyRound (mean_score * (7/10) + (worst_score : ℚ) * (3/10))

/-! ## Rep segmentation (`analysis/rep_splitter.py`)

The segmenter calls `scipy.signal.find_peaks(-angles, prominence=…,
distance=…)`.  `find_peaks` is embedded below following scipy's
documented algorithms in their application order: strict/plateau local
maxima first, then the height-priority distance filter, then the
prominence filter.  Ties of equal peak heights inside numpy's `argsort`
are unordered in the source; a stable sort (original index order) is the
fixed deterministic choice here. -/

/-- The inner plateau scan of scipy's `_local_maxima_1d`: advance
`i_ahead` while it is left of the last sample and the signal still equals
the candidate peak value `v`. -/
def plateauEnd (x : List ℚ) (v : ℚ) : ℕ → ℕ → ℕ
  | 0, ia => ia
  | fuel + 1, ia =>
    if ia < x.length - 1 ∧ x.getD ia 0 = v then plateauEnd x v fuel (ia + 1) else ia

/-- The main scan of scipy's `_local_maxima_1d`: a sample (or plateau)
strictly above both neighbours yields a peak at the plateau midpoint
`(left_edge + right_edge) / 2`; the scan resumes after the plateau.
First and last samples can never be peaks. -/
def lmGo (x : List ℚ) : ℕ → ℕ → List ℕ
  | 0, _ => []
  | fuel + 1, i =>
    if i < x.length - 1 then
      if x.getD (i - 1) 0 < x.getD i 0 then
        let ia := plateauEnd x (x.getD i 0) x.length (i + 1)
        if x.getD ia 0 < x.getD i 0 then
          (i + (ia - 1)) / 2 :: lmGo x fuel (ia + 1)
        else lmGo x fuel (i + 1)
      else lmGo x fuel (i + 1)
    else []

/-- All local maxima (plateau midpoints) of a series, ascending. -/
def localMaxima (x : List ℚ) : List ℕ := lmGo x x.length 1

/-- Left half of scipy's `_peak_prominences` base search: walk left from
the peak while the signal stays `≤` the peak value, tracking the minimum
seen.  The second argument counts `i + 1` so that `0` encodes having
walked past the first sample. -/
def promLeft (x : List ℚ) (pv : ℚ) : ℕ → ℕ → ℚ → ℚ
  | 0, _, m => m
  | _ + 1, 0, m => m
  | fuel + 1, i + 1, m =>
    if x.getD i 0 ≤ pv then promLeft x pv fuel i (min m (x.getD i 0)) else m

/-- Right half of scipy's `_peak_prominences` base search. -/
def promRight (x : List ℚ) (pv : ℚ) : ℕ → ℕ → ℚ → ℚ
  | 0, _, m => m
  | fuel + 1, i, m =>
    if i ≤ x.length - 1 ∧ x.getD i 0 ≤ pv then
      promRight x pv fuel (i + 1) (min m (x.getD i 0))
    else m

/-- scipy `peak_prominences` (full window): peak value minus the larger
of the two base minima. -/
def prominenceOf (x : List ℚ) (p : ℕ) : ℚ :=
  let pv := x.getD p 0
  pv - max (promLeft x pv (x.length + 1) (p + 1) pv) (promRight x pv (x.length + 1) p pv)

/-- Left clearing loop of scipy's `_select_by_peak_distance`: walking down
from position `j`, un-keep peaks closer than `d` to `peaks[j]`, stopping
at the first one far enough away. -/
def clearBelow (peaks : List ℕ) (d : ℕ) (pj : ℕ) : ℕ → ℕ → List Bool → List Bool
  | 0, _, keep => keep
  | _ + 1, 0, keep => keep
  | fuel + 1, k + 1, keep =>
    if (pj : ℤ) - peaks.getD k 0 < d then clearBelow peaks d pj fuel k (keep.set k false)
    else keep

/-- Right clearing loop of scipy's `_select_by_peak_distance`. -/
def clearAbove (peaks : List ℕ) (d : ℕ) (pj : ℕ) (n : ℕ) : ℕ → ℕ → List Bool → List Bool
  | 0, _, keep => keep
  | fuel + 1, k, keep =>
    if k < n ∧ (peaks.getD k 0 : ℤ) - pj < d then
      clearAbove peaks d pj n fuel (k + 1) (keep.set k false)
    else keep

/-- Stable insertion into an index list sorted ascending by height
(equal heights keep earlier indices first). -/
def insertAsc (hs : List ℚ) (i : ℕ) : List ℕ → List ℕ
  | [] => [i]
  | j :: rest => if hs.getD i 0 < hs.getD j 0 then i :: j :: rest else j :: insertAsc hs i rest

/-- Stable argsort of `[0, …, n-1]` by height, ascending. -/
def argsortAsc (hs : List ℚ) (n : ℕ) : List ℕ :=
  (List.range n).foldl (fun acc i => insertAsc hs i acc) []

/-- scipy `_select_by_peak_distance`: visit peaks from highest to lowest,
and each still-kept peak un-keeps every neighbour closer than `d` frames
(left side first, as in the source). -/
def selectByPeakDistance (peaks : List ℕ) (hs : List ℚ) (d : ℕ) : List ℕ :=
  let n := peaks.length
  let order := (argsortAsc hs n).reverse
  let keep := order.foldl (fun keep j =>
    if keep.getD j true then
      clearAbove peaks d (peaks.getD j 0) n (n + 1) (j + 1)
        (clearBelow peaks d (peaks.getD j 0) (n + 1) j keep)
    else keep) (List.replicate n true)
  ((List.range n).filter (fun j => keep.getD j true)).map (fun j => peaks.getD j 0)

/-- `scipy.signal.find_peaks(x, prominence=prom, distance=dist)`:
local maxima, then the distance filter, then the prominence filter. -/
def findPeaks (x : List ℚ) (prom : ℚ) (dist : ℕ) : List ℕ :=
  let peaks := localMaxima x
  let peaks2 := selectByPeakDistance peaks (peaks.map (fun p => x.getD p 0)) dist
  peaks2.filter (fun p => prom ≤ prominenceOf x p)

/-- `VALLEY_DEPTH_THRESHOLD` (primary pass). -/
def VALLEY_DEPTH_THRESHOLD : ℚ := 165
/-- `LOCKOUT_MIN_ANGLE` (primary pass). -/
def LOCKOUT_MIN_ANGLE : ℚ := 145
/-- `VALLEY_PROMINENCE` (primary pass). -/
def VALLEY_PROMINENCE : ℚ := 8
/-- `VALLEY_MIN_DISTANCE` (primary pass). -/
def VALLEY_MIN_DISTANCE : ℕ := 10
/-- `FALLBACK_VALLEY_DEPTH_THRESHOLD`. -/
def FALLBACK_VALLEY_DEPTH_THRESHOLD : ℚ := 175
/-- `FALLBACK_LOCKOUT_MIN_ANGLE`. -/
def FALLBACK_LOCKOUT_MIN_ANGLE : ℚ := 120
/-- `FALLBACK_VALLEY_PROMINENCE`. -/
def FALLBACK_VALLEY_PROMINENCE : ℚ := 4
/-- `FALLBACK_VALLEY_MIN_DISTANCE`. -/
def FALLBACK_VALLEY_MIN_DISTANCE : ℕ := 6

/-- The deep valleys of one detection pass: indices returned by
`find_peaks(-angles, …)` whose angle is `≤` the valley-depth threshold. -/
def deepValleys (angles : List ℚ) (valley_depth_threshold valley_prominence : ℚ)
    (valley_min_distance : ℕ) : List ℕ :=
  (findPeaks (angles.map (fun a => -a)) valley_prominence valley_min_distance).filter
    (fun i => angles.getD i 0 ≤ valley_depth_threshold)

/-- Integer midpoints of consecutive indices (`(v_i + v_{i+1}) // 2`). -/
def midpointsOf : List ℕ → List ℕ
  | a :: b :: rest => (a + b) / 2 :: midpointsOf (b :: rest)
  | _ => []

/-- The slice boundary list of `_detect_reps_by_valleys`:
`[0] ++ midpoints ++ [n]`. -/
def repBoundaries (dv : List ℕ) (n : ℕ) : List ℕ := 0 :: (midpointsOf dv ++ [n])

/-- The candidate rep ranges, one per deep valley: consecutive boundary
pairs `[b_i, b_{i+1})` (the `enumerate(deep_valleys)` loop reads exactly
the first `len(deep_valleys)` pairs). -/
def candidateRanges (dv : List ℕ) (n : ℕ) : List (ℕ × ℕ) :=
  (((repBoundaries dv n).zip (repBoundaries dv n).tail).take dv.length)

/-- `max` of a rational list (Python `np.max`; junk head default on `[]`,
only applied to non-empty slices). -/
def listMaxQ (l : List ℚ) : ℚ := l.foldl max (l.headD 0)

/-- `min` of a rational list (Python `min(list)`). -/
def listMinQ (l : List ℚ) : ℚ := l.foldl min (l.headD 0)

/-- `angles[start:end]` as a value list. -/
def sliceOf (angles : List ℚ) (se : ℕ × ℕ) : List ℚ :=
  (angles.drop se.1).take (se.2 - se.1)

/-- The index ranges retained by `_detect_reps_by_valleys`: candidate
ranges whose slice maximum reaches the lockout threshold; empty when the
pass finds no valleys or no deep valleys. -/
def detectRanges (angles : List ℚ) (valley_depth_threshold lockout_min_angle
    valley_prominence : ℚ) (valley_min_distance : ℕ) : List (ℕ × ℕ) :=
  if (findPeaks (angles.map (fun a => -a)) valley_prominence valley_min_distance).isEmpty
  then []
  else
    let dv := deepValleys angles valley_depth_threshold valley_prominence valley_min_distance
    if dv.isEmpty then []
    else (candidateRanges dv angles.length).filter
      (fun se => lockout_min_angle ≤ listMaxQ (sliceOf angles se))

/-- `_detect_reps_by_valleys` from `rep_splitter.py`: the retained slices
as value lists. -/
def detect_reps_by_valleys (angles : List ℚ) (valley_depth_threshold lockout_min_angle
    valley_prominence : ℚ) (valley_min_distance : ℕ) : List (List ℚ) :=
  (detectRanges angles valley_depth_threshold lockout_min_angle valley_prominence
    valley_min_distance).map (sliceOf angles)

/-- `segment_reps` from `rep_splitter.py` with its default (primary)
parameters: primary pass, then the permissive fallback pass only when the
primary pass found nothing.  Inputs are rational (finite), so the
non-finite interpolation repair of the source is the identity here. -/
def segment_reps (elbow_angles : List ℚ) : List (List ℚ) :=
  if elbow_angles.length < 2 then []
  else
    let reps := detect_reps_by_valleys elbow_angles VALLEY_DEPTH_THRESHOLD
      LOCKOUT_MIN_ANGLE VALLEY_PROMINENCE VALLEY_MIN_DISTANCE
    if reps.isEmpty then
      detect_reps_by_valleys elbow_angles FALLBACK_VALLEY_DEPTH_THRESHOLD
        FALLBACK_LOCKOUT_MIN_ANGLE FALLBACK_VALLEY_PROMINENCE FALLBACK_VALLEY_MIN_DISTANCE
    else reps

/-! ## Helper lemmas -/

theorem pyTrunc_of_nonneg {q : ℚ} (h : 0 ≤ q) : pyTrunc q = ⌊q⌋ := if_pos h

theorem pyTrunc_nonpos {q : ℚ} (h : q ≤ 0) : pyTrunc q ≤ 0 := by
  unfold pyTrunc
  split_ifs with h0
  · have : q = 0 := le_antisymm h h0
    simp [this]
  · exact Int.ceil_le.mpr (by exact_mod_cast h)

theorem pyTrunc_mono {q r : ℚ} (h : q ≤ r) : pyTrunc q ≤ pyTrunc r := by
  unfold pyTrunc
  split_ifs with hq hr hr
  · exact Int.floor_le_floor h
  · exact absurd (le_trans hq h) hr
  · calc ⌈q⌉ ≤ 0 := Int.ceil_le.mpr (by exact_mod_cast le_of_not_le hq)
      _ ≤ ⌊r⌋ := Int.floor_nonneg.mpr hr
  · exact Int.ceil_le_ceil h

theorem pyTrunc_int_le {n : ℤ} {q : ℚ} (h : (n : ℚ) ≤ q) (h0 : 0 ≤ q) :
    n ≤ pyTrunc q := by
  rw [pyTrunc_of_nonneg h0]
  exact Int.le_floor.mpr h

theorem pyRound_ge_floor (q : ℚ) : ⌊q⌋ ≤ pyRound q := by
  unfold pyRound
  split_ifs <;> omega

theorem pyRound_int_le {n : ℤ} {q : ℚ} (h : (n : ℚ) ≤ q) : n ≤ pyRound q :=
  le_trans (Int.le_floor.mpr h) (pyRound_ge_floor q)

theorem pyRound_le_int {n : ℤ} {q : ℚ} (h : q ≤ (n : ℚ)) : pyRound q ≤ n := by
  unfold pyRound
  have hf : ⌊q⌋ ≤ n := by
    calc ⌊q⌋ ≤ ⌊(n : ℚ)⌋ := Int.floor_le_floor h
    _ = n := Int.floor_intCast n
  split_ifs with h1 h2 h3
  · exact hf
  all_goals {
    have hlt : (⌊q⌋ : ℚ) + 1/2 ≤ q := by linarith
    have : (⌊q⌋ : ℚ) < (n : ℚ) := by linarith
    have : ⌊q⌋ < n := by exact_mod_cast this
    omega }

theorem foldl_min_mem (a : ℤ) (l : List ℤ) : l.foldl min a ∈ a :: l := by
  induction l generalizing a with
  | nil => simp
  | cons b t ih =>
    rw [List.foldl_cons]
    rcases List.mem_cons.mp (ih (min a b)) with h | h
    · rcases min_choice a b with hm | hm
      · exact List.mem_cons.mpr (Or.inl (h.trans hm))
      · simp [List.mem_cons, h.trans hm]
    · simp [List.mem_cons, h]

theorem listMinInt_mem {l : List ℤ} (h : l ≠ []) : listMinInt l ∈ l := by
  match l with
  | a :: t =>
    unfold listMinInt
    have := foldl_min_mem a (a :: t)
    simpa using this

theorem plateauEnd_ge (x : List ℚ) (v : ℚ) :
    ∀ fuel ia, ia ≤ plateauEnd x v fuel ia := by
  intro fuel
  induction fuel with
  | zero => intro ia; simp [plateauEnd]
  | succ fuel ih =>
    intro ia
    simp only [plateauEnd]
    split_ifs with h
    · exact le_trans (Nat.le_succ ia) (ih (ia + 1))
    · exact le_refl ia

theorem plateauEnd_le (x : List ℚ) (v : ℚ) :
    ∀ fuel ia, ia ≤ x.length - 1 → plateauEnd x v fuel ia ≤ x.length - 1 := by
  intro fuel
  induction fuel with
  | zero => intro ia h; simpa [plateauEnd] using h
  | succ fuel ih =>
    intro ia h
    simp only [plateauEnd]
    split_ifs with hc
    · exact ih (ia + 1) (by omega)
    · exact h

theorem lmGo_spec (x : List ℚ) : ∀ (fuel i : ℕ),
    (∀ m ∈ lmGo x fuel i, i ≤ m ∧ m + 2 ≤ x.length) ∧
    (lmGo x fuel i).Pairwise (· < ·) := by
  intro fuel
  induction fuel with
  | zero =>
    intro i
    constructor
    · intro m hm; simp [lmGo] at hm
    · simp [lmGo]
  | succ fuel ih =>
    intro i
    simp only [lmGo]
    split_ifs with h1 h2 h3
    · -- peak at (i + (ia - 1)) / 2, continue at ia + 1
      have hia1 : i + 1 ≤ plateauEnd x (x.getD i 0) x.length (i + 1) :=
        plateauEnd_ge x _ x.length (i + 1)
      have hia2 : plateauEnd x (x.getD i 0) x.length (i + 1) ≤ x.length - 1 :=
        plateauEnd_le x _ x.length (i + 1) (by omega)
      obtain ⟨ihb, ihp⟩ := ih (plateauEnd x (x.getD i 0) x.length (i + 1) + 1)
      constructor
      · intro m hm
        rcases List.mem_cons.mp hm with rfl | hm'
        · omega
        · have := ihb m hm'
          omega
      · refine List.Pairwise.cons ?_ ihp
        intro m hm
        have := ihb m hm
        omega
    · obtain ⟨ihb, ihp⟩ := ih (i + 1)
      exact ⟨fun m hm => by have := ihb m hm; omega, ihp⟩
    · obtain ⟨ihb, ihp⟩ := ih (i + 1)
      exact ⟨fun m hm => by have := ihb m hm; omega, ihp⟩
    · constructor
      · intro m hm; simp at hm
      · simp

theorem localMaxima_spec (x : List ℚ) :
    (∀ m ∈ localMaxima x, 1 ≤ m ∧ m + 2 ≤ x.length) ∧
    (localMaxima x).Pairwise (· < ·) :=
  lmGo_spec x x.length 1

theorem getD_lt_getD {peaks : List ℕ} (hp : peaks.Pairwise (· < ·)) {i j : ℕ}
    (hij : i < j) (hj : j < peaks.length) : peaks.getD i 0 < peaks.getD j 0 := by
  have hi : i < peaks.length := lt_trans hij hj
  rw [List.getD_eq_get _ _ hi, List.getD_eq_get _ _ hj]
  exact List.pairwise_iff_get.mp hp ⟨i, hi⟩ ⟨j, hj⟩ hij

theorem map_getD_filter_spec (peaks : List ℕ) (pred : ℕ → Bool)
    (hp : peaks.Pairwise (· < ·)) :
    (∀ q ∈ ((List.range peaks.length).filter pred).map (fun j => peaks.getD j 0),
      q ∈ peaks) ∧
    (((List.range peaks.length).filter pred).map
      (fun j => peaks.getD j 0)).Pairwise (· < ·) := by
  have hmemn : ∀ j ∈ (List.range peaks.length).filter pred, j < peaks.length :=
    fun j hj => List.mem_range.mp (List.mem_of_mem_filter hj)
  constructor
  · intro q hq
    obtain ⟨j, hj, rfl⟩ := List.mem_map.mp hq
    have hjn := hmemn j hj
    rw [List.getD_eq_get _ _ hjn]
    exact List.get_mem _ _ _
  · rw [List.pairwise_map]
    have hfil : ((List.range peaks.length).filter pred).Pairwise (· < ·) :=
      (List.pairwise_lt_range _).filter pred
    refine hfil.imp_of_mem ?_
    intro a b ha hb hab
    exact getD_lt_getD hp hab (hmemn b hb)

theorem selectByPeakDistance_spec (peaks : List ℕ) (hs : List ℚ) (d : ℕ)
    (hp : peaks.Pairwise (· < ·)) :
    (∀ q ∈ selectByPeakDistance peaks hs d, q ∈ peaks) ∧
    (selectByPeakDistance peaks hs d).Pairwise (· < ·) := by
  unfold selectByPeakDistance
  exact map_getD_filter_spec peaks _ hp

theorem findPeaks_spec (x : List ℚ) (prom : ℚ) (dist : ℕ) :
    (∀ p ∈ findPeaks x prom dist, 1 ≤ p ∧ p + 2 ≤ x.length) ∧
    (findPeaks x prom dist).Pairwise (· < ·) := by
  obtain ⟨hlb, hlp⟩ := localMaxima_spec x
  obtain ⟨hsm, hsp⟩ :=
    selectByPeakDistance_spec (localMaxima x)
      ((localMaxima x).map (fun p => x.getD p 0)) dist hlp
  constructor
  · intro p hp
    have hp2 : p ∈ selectByPeakDistance (localMaxima x)
        ((localMaxima x).map (fun p => x.getD p 0)) dist :=
      List.mem_of_mem_filter hp
    exact hlb p (hsm p hp2)
  · exact hsp.filter _

theorem deepValleys_spec (angles : List ℚ) (vdt vp : ℚ) (vmd : ℕ) :
    (∀ v ∈ deepValleys angles vdt vp vmd, 1 ≤ v ∧ v + 2 ≤ angles.length) ∧
    (deepValleys angles vdt vp vmd).Pairwise (· < ·) := by
  obtain ⟨hb, hp⟩ := findPeaks_spec (angles.map (fun a => -a)) vp vmd
  rw [List.length_map] at hb
  constructor
  · intro v hv
    exact hb v (List.mem_of_mem_filter hv)
  · exact hp.filter _

theorem midpointsOf_ge_head :
    ∀ (b : ℕ) (rest : List ℕ), (b :: rest).Pairwise (· < ·) →
      ∀ m ∈ midpointsOf (b :: rest), b ≤ m := by
  intro b rest
  induction rest generalizing b with
  | nil => intro _ m hm; simp [midpointsOf] at hm
  | cons c rest ih =>
    intro hp m hm
    have hbc : b < c := (List.pairwise_cons.mp hp).1 c (by simp)
    rcases List.mem_cons.mp hm with rfl | hm'
    · omega
    · have := ih c ((List.pairwise_cons.mp hp).2) m hm'
      omega

theorem midpointsOf_pairwise :
    ∀ (dv : List ℕ), dv.Pairwise (· < ·) → (midpointsOf dv).Pairwise (· < ·) := by
  intro dv
  induction dv with
  | nil => intro _; simp [midpointsOf]
  | cons a rest ih =>
    intro hp
    match rest, hp, ih with
    | [], _, _ => simp [midpointsOf]
    | b :: rest, hp, ih =>
      have hp' := (List.pairwise_cons.mp hp).2
      have hab : a < b := (List.pairwise_cons.mp hp).1 b (by simp)
      refine List.Pairwise.cons ?_ (ih hp')
      intro m hm
      have hbm : b ≤ m := midpointsOf_ge_head b rest hp' m hm
      omega

theorem midpointsOf_mem_bounds {n : ℕ} :
    ∀ (dv : List ℕ), dv.Pairwise (· < ·) → (∀ v ∈ dv, 1 ≤ v ∧ v + 2 ≤ n) →
      ∀ m ∈ midpointsOf dv, 1 ≤ m ∧ m + 2 ≤ n := by
  intro dv
  induction dv with
  | nil => intro _ _ m hm; simp [midpointsOf] at hm
  | cons a rest ih =>
    intro hp hb m hm
    match rest, hp, hm with
    | [], _, hm => simp [midpointsOf] at hm
    | b :: rest, hp, hm =>
      rcases List.mem_cons.mp hm with rfl | hm'
      · have ha := hb a (by simp)
        have hbb := hb b (by simp)
        have hab : a < b := (List.pairwise_cons.mp hp).1 b (by simp)
        omega
      · exact ih ((List.pairwise_cons.mp hp).2) (fun v hv => hb v (by simp [hv])) m hm'

theorem repBoundaries_pairwise (dv : List ℕ) (n : ℕ) (hdv : dv ≠ [])
    (hp : dv.Pairwise (· < ·)) (hb : ∀ v ∈ dv, 1 ≤ v ∧ v + 2 ≤ n) :
    (repBoundaries dv n).Pairwise (· < ·) := by
  have hn3 : 3 ≤ n := by
    match dv, hdv with
    | v :: _, _ =>
      have := hb v (by simp)
      omega
  have hmb := midpointsOf_mem_bounds dv hp hb
  unfold repBoundaries
  refine List.Pairwise.cons ?_ ?_
  · intro m hm
    rcases List.mem_append.mp hm with hm' | hm'
    · have := hmb m hm'; omega
    · have : m = n := by simpa using hm'
      omega
  · rw [List.pairwise_append]
    refine ⟨midpointsOf_pairwise dv hp, by simp, ?_⟩
    intro m hm m' hm'
    have : m' = n := by simpa using hm'
    have := hmb m hm
    omega

theorem zip_tail_spec :
    ∀ (l : List ℕ), l.Pairwise (· < ·) →
      (∀ se ∈ l.zip l.tail, se.1 < se.2) ∧
      (l.zip l.tail).Pairwise (fun a b : ℕ × ℕ => a.2 ≤ b.1) := by
  intro l
  induction l with
  | nil => intro _; simp
  | cons a t ih =>
    intro hp
    match t, hp, ih with
    | [], _, _ => simp
    | b :: rest, hp, ih =>
      have hp' := (List.pairwise_cons.mp hp).2
      have hab : a < b := (List.pairwise_cons.mp hp).1 b (by simp)
      obtain ⟨ih1, ih2⟩ := ih hp'
      constructor
      · intro se hse
        rcases List.mem_cons.mp hse with rfl | hse'
        · exact hab
        · exact ih1 se hse'
      · refine List.Pairwise.cons ?_ ih2
        intro se hse
        have h1 : se.1 ∈ b :: rest := by
          obtain ⟨x, y⟩ := se
          exact (List.of_mem_zip hse).1
        rcases List.mem_cons.mp h1 with h | h
        · omega
        · have : b < se.1 := (List.pairwise_cons.mp hp').1 se.1 h
          omega

/-! ## Claim theorems -/

/-- C3: `calculate_form_score` returns 0 for a non-positive
`max_acceptable_distance`; otherwise 100 for distance ≤ 0, 0 for distance
≥ `max_acceptable_distance`, the clamped floor of `100·(1 − d/max)` in
between, and for fixed positive `max_acceptable_distance` it is
monotonically non-increasing in the distance. -/
theorem claim_C3_form_score (d m : ℚ) :
    (m ≤ 0 → calculate_form_score d m = 0) ∧
    (0 < m →
      (d ≤ 0 → calculate_form_score d m = 100) ∧
      (m ≤ d → calculate_form_score d m = 0) ∧
      (0 < d → d < m →
        calculate_form_score d m = max 0 (min 100 ⌊100 * (1 - d / m)⌋)) ∧
      (∀ d', d ≤ d' → calculate_form_score d' m ≤ calculate_form_score d m)) := by
  have key : 0 < m → ∀ x : ℚ,
      calculate_form_score x m = max 0 (min 100 (pyTrunc (100 * (1 - x / m)))) := by
    intro hm x
    unfold calculate_form_score
    rw [if_neg (not_le.mpr hm)]
    split_ifs with hx
    · have hdiv : x / m ≤ 0 := div_nonpos_of_nonpos_of_nonneg hx (le_of_lt hm)
      have h100 : (100 : ℚ) ≤ 100 * (1 - x / m) := by nlinarith
      have := pyTrunc_int_le (n := 100) h100 (by linarith)
      omega
    · rfl
  refine ⟨fun hm => by unfold calculate_form_score; rw [if_pos hm], fun hm => ?_⟩
  refine ⟨fun hd => by unfold calculate_form_score; rw [if_neg (not_le.mpr hm), if_pos hd],
    fun hd => ?_, fun hd1 hd2 => ?_, fun d' hdd => ?_⟩
  · rw [key hm d]
    have hdiv : (1 : ℚ) ≤ d / m := (one_le_div hm).mpr hd
    have : 100 * (1 - d / m) ≤ 0 := by nlinarith
    have := pyTrunc_nonpos this
    omega
  · rw [key hm d]
    have hq : (0:ℚ) ≤ 100 * (1 - d / m) := by
      have : d / m < 1 := (div_lt_one hm).mpr hd2
      nlinarith
    rw [pyTrunc_of_nonneg hq]
  · rw [key hm d, key hm d']
    have hdiv : d / m ≤ d' / m := div_le_div_of_le (le_of_lt hm) hdd
    have : 100 * (1 - d' / m) ≤ 100 * (1 - d / m) := by nlinarith
    have := pyTrunc_mono this
    omega

/-- C3 witness: concrete evaluations at `max_acceptable = 20`. -/
theorem claim_C3_form_score_witness :
    calculate_form_score 5 20 = max 0 (min 100 ⌊(100 : ℚ) * (1 - 5 / 20)⌋) ∧
    calculate_form_score 25 20 = 0 ∧
    calculate_form_score (-1) 20 = 100 ∧
    calculate_form_score 7 (-3) = 0 := by
  refine ⟨((claim_C3_form_score 5 20).2 (by norm_num)).2.2.1 (by norm_num) (by norm_num),
    ((claim_C3_form_score 25 20).2 (by norm_num)).2.1 (by norm_num),
    ((claim_C3_form_score (-1) 20).2 (by norm_num)).1 (by norm_num),
    (claim_C3_form_score 7 (-3)).1 (by norm_num)⟩

/-- C4: on a non-empty list of per-rep scores in [0,100], the set score is
`round(0.7·mean + 0.3·min)`, lies in [0,100], and `[30,30,30,30,100]`
aggregates to 40. -/
theorem claim_C4_aggregate (scores : List ℤ) (hne : scores ≠ [])
    (hb : ∀ s ∈ scores, 0 ≤ s ∧ s ≤ 100) :
    aggregate_scores scores
      = pyRound (((scores.sum : ℚ) / (scores.length : ℚ)) * (7/10)
          + (listMinInt scores : ℚ) * (3/10))
    ∧ (0 ≤ aggregate_scores scores ∧ aggregate_scores scores ≤ 100)
    ∧ aggregate_scores [30, 30, 30, 30, 100] = 40 := by
  have hlen : 0 < (scores.length : ℚ) := by
    have : 0 < scores.length := List.length_pos.mpr hne
    exact_mod_cast this
  have hsum0 : (0 : ℤ) ≤ scores.sum := List.sum_nonneg (fun x hx => (hb x hx).1)
  have hsum100 : scores.sum ≤ scores.length • (100 : ℤ) :=
    List.sum_le_card_nsmul scores 100 (fun x hx => (hb x hx).2)
  have hmean0 : (0 : ℚ) ≤ (scores.sum : ℚ) / (scores.length : ℚ) :=
    div_nonneg (by exact_mod_cast hsum0) (le_of_lt hlen)
  have hmean100 : (scores.sum : ℚ) / (scores.length : ℚ) ≤ 100 := by
    rw [div_le_iff₀ hlen]
    have h' : scores.sum ≤ (scores.length : ℤ) * 100 := by
      have := hsum100
      rwa [nsmul_eq_mul] at this
    have : (scores.sum : ℚ) ≤ (scores.length : ℚ) * 100 := by exact_mod_cast h'
    linarith
  have hmem := listMinInt_mem hne
  have hmin0 : (0 : ℤ) ≤ listMinInt scores := (hb _ hmem).1
  have hmin100 : listMinInt scores ≤ 100 := (hb _ hmem).2
  have hmin0' : (0 : ℚ) ≤ (listMinInt scores : ℚ) := by exact_mod_cast hmin0
  have hmin100' : (listMinInt scores : ℚ) ≤ 100 := by exact_mod_cast hmin100
  refine ⟨rfl, ⟨?_, ?_⟩, ?_⟩
  · refine pyRound_int_le (n := 0) ?_
    rw [Int.cast_zero]
    nlinarith
  · refine pyRound_le_int (n := 100) ?_
    rw [show ((100 : ℤ) : ℚ) = 100 from by norm_num]
    nlinarith
  · norm_num [aggregate_scores, listMinInt, pyRound, List.foldl_cons, List.foldl_nil]

/-- C4 witness: the concrete set `[30,30,30,30,100]`. -/
theorem claim_C4_aggregate_witness :
    aggregate_scores [30, 30, 30, 30, 100] = 40 ∧
    0 ≤ aggregate_scores [30, 30, 30, 30, 100] :=
  ⟨(claim_C4_aggregate [30, 30, 30, 30, 100] (by simp) (by decide)).2.2,
    (claim_C4_aggregate [30, 30, 30, 30, 100] (by simp) (by decide)).2.1.1⟩

/-- C5 counterexample: on the non-empty rep `[150]` the heuristic scorer's
error list contains a label produced by the range-of-motion component,
refuting the claim that only depth/lockout labels can appear. -/
theorem claim_C5_counterexample :
    ([150] : List ℚ) ≠ [] ∧
    ¬ (∀ e ∈ (score_rep_heuristic [150]).2,
        e = "insufficient depth" ∨ e = "incomplete lockout") := by
  refine ⟨by simp, fun hall => ?_⟩
  have h2 : (score_rep_heuristic [150]).2
      = ["insufficient depth", "very limited range of motion"] := by
    norm_num [score_rep_heuristic]
  have := hall "very limited range of motion" (by rw [h2]; simp)
  rcases this with h | h <;> exact absurd h (by decide)

/-- C5 (amended): on a non-empty rep the error list contains only the
three component labels — depth's, lockout's, and the range-of-motion
label "very limited range of motion", which the range-of-motion component
emits exactly when the movement arc is ≤ 20°. -/
theorem claim_C5_error_labels (rep : List ℚ) (h : rep ≠ []) :
    (∀ e ∈ (score_rep_heuristic rep).2,
      e = "insufficient depth" ∨ e = "incomplete lockout"
        ∨ e = "very limited range of motion") ∧
    ("very limited range of motion" ∈ (score_rep_heuristic rep).2 ↔
      listMaxQ rep - listMinQ rep ≤ 20) := by
  match rep, h with
  | a :: rest, _ =>
    have hmax : listMaxQ (a :: rest) = rest.foldl max a := by simp [listMaxQ]
    have hmin : listMinQ (a :: rest) = rest.foldl min a := by simp [listMinQ]
    rw [hmax, hmin]
    simp only [score_rep_heuristic]
    constructor
    · intro e he
      simp only [List.mem_append] at he
      split_ifs at he <;> simp_all <;> tauto
    · split_ifs <;> simp_all <;> try linarith

/-- C5 witness for the amended claim: the rep `[150]`. -/
theorem claim_C5_error_labels_witness :
    ("very limited range of motion" ∈ (score_rep_heuristic [150]).2 ↔
      listMaxQ [150] - listMinQ [150] ≤ 20) :=
  (claim_C5_error_labels [150] (by simp)).2

/-- C6 counterexample: an empty user rep against the empty library returns
match name "no_reference" and the penalty distance, not "heuristic" and
distance 0. -/
theorem claim_C6_counterexample :
    evaluate_against_library [] [] 20 = ("no_reference", PENALTY_DISTANCE, 0) ∧
    ("no_reference" : String) ≠ "heuristic" ∧ PENALTY_DISTANCE ≠ 0 := by
  refine ⟨rfl, by decide, ?_⟩
  norm_num [PENALTY_DISTANCE]

/-- C6 (amended): for every NON-EMPTY user rep, evaluation against an
empty library returns match name "heuristic", distance 0, and the
heuristic-only score. -/
theorem claim_C6_empty_library (user : List ℚ) (m : ℚ) (h : user ≠ []) :
    evaluate_against_library user [] m
      = ("heuristic", 0, (score_rep_heuristic user).1) := by
  simp [evaluate_against_library, h]

/-- C6 witness for the amended claim: the rep `[100]`. -/
theorem claim_C6_empty_library_witness :
    evaluate_against_library [100] [] 20 = ("heuristic", 0, 40) := by
  rw [claim_C6_empty_library [100] 20 (by simp)]
  norm_num [score_rep_heuristic, pyTrunc]

theorem findBest_skip_all (user : List ℚ) (lib : List (String × List AngleVal))
    (b : Option (String × ℚ)) (hall : ∀ p ∈ lib, p.2 = []) :
    findBest user lib b = b := by
  induction lib generalizing b with
  | nil => rfl
  | cons p rest ih =>
    have hp : p.2 = [] := hall p (by simp)
    match p, hp with
    | (nm, _), rfl =>
      simp only [findBest, List.isEmpty_nil, if_true]
      exact ih b (fun q hq => hall q (by simp [hq]))

/-- C7 counterexample: with the non-empty rep `[100]` and a library whose
single reference contains a non-finite value, every comparison is
substituted by the penalty sentinel — yet the sentinel is finite, wins the
minimum, and the matcher returns that reference's name with a blended
score of 20, not "no_reference" with the heuristic-only score 40. -/
theorem claim_C7_counterexample :
    evaluate_against_library [100] [("ref1", [AngleVal.nonfin])] 20
      = ("ref1", PENALTY_DISTANCE, 20) ∧
    ("ref1" : String) ≠ "no_reference" ∧
    (score_rep_heuristic [100]).1 = 40 ∧ ((20 : ℤ) ≠ 40) := by
  have hdist : calculate_dtw_distance [AngleVal.fin 100] [AngleVal.nonfin]
      = PENALTY_DISTANCE := by
    simp [calculate_dtw_distance, AngleVal.isFinite]
  have hceil : ⌈(-49895 : ℚ)⌉ = -49895 := by
    rw [show (-49895 : ℚ) = ((-49895 : ℤ) : ℚ) from by norm_num, Int.ceil_intCast]
  have hform : calculate_form_score PENALTY_DISTANCE DTW_MAX_DIST_DEGREES = 0 := by
    unfold calculate_form_score pyTrunc
    norm_num [PENALTY_DISTANCE, DTW_MAX_DIST_DEGREES]
    rw [hceil]
    norm_num
  have hheur : (score_rep_heuristic [100]).1 = 40 := by
    norm_num [score_rep_heuristic, pyTrunc]
  have hblend : (score_rep_blended [100] [AngleVal.nonfin]).1 = 20 := by
    simp only [score_rep_blended, List.map_cons, List.map_nil]
    rw [hdist, hform, hheur]
    norm_num [pyRound]
  refine ⟨?_, by decide, hheur, by decide⟩
  norm_num [evaluate_against_library, findBest, accumBest, finishEval, lookupRef,
    List.find?, hdist, hblend, PENALTY_DISTANCE]
  exact fun hcontra => absurd hcontra (by decide)

/-- C7 (amended): when the user rep is non-empty and every entry of a
non-empty library has an empty series (so every comparison is skipped and
no distance is ever computed), the matcher returns "no_reference", the
penalty distance, and the heuristic-only score.  A comparison that is
substituted by the (finite) penalty sentinel instead wins the minimum and
yields that reference's name with a blended score, as the counterexample
shows. -/
theorem claim_C7_all_references_unusable (user : List ℚ)
    (lib : List (String × List AngleVal)) (m : ℚ)
    (hu : user ≠ []) (hl : lib ≠ []) (hall : ∀ p ∈ lib, p.2 = []) :
    evaluate_against_library user lib m
      = ("no_reference", PENALTY_DISTANCE, (score_rep_heuristic user).1) := by
  simp [evaluate_against_library, hu, hl, findBest_skip_all user lib none hall, finishEval]

/-- C7 witness for the amended claim. -/
theorem claim_C7_all_references_unusable_witness :
    evaluate_against_library [100] [("a", [])] 20
      = ("no_reference", PENALTY_DISTANCE, 40) := by
  rw [claim_C7_all_references_unusable [100] [("a", [])] 20 (by simp) (by simp)
    (by simp)]
  norm_num [score_rep_heuristic, pyTrunc]

theorem optMin_eq_or {a b : Option (ℚ × ℕ)} {p : ℚ × ℕ} (h : optMin a b = some p) :
    a = some p ∨ b = some p := by
  match a, b with
  | none, o => exact Or.inr h
  | some q, none => exact Or.inl h
  | some q, some r =>
    simp only [optMin] at h
    split_ifs at h
    · exact Or.inr h
    · exact Or.inl h

theorem optMin_le_right {a b : Option (ℚ × ℕ)} {p q : ℚ × ℕ} (h : optMin a b = some p)
    (hb : b = some q) : p.1 ≤ q.1 := by
  subst hb
  match a with
  | none =>
    simp only [optMin] at h
    rw [Option.some_inj.mp h]
  | some r =>
    simp only [optMin] at h
    split_ifs at h with hlt
    · rw [Option.some_inj.mp h.symm]
    · rw [← Option.some_inj.mp h]
      exact le_of_not_lt hlt

theorem optMin_some_right (a : Option (ℚ × ℕ)) (q : ℚ × ℕ) :
    ∃ p, optMin a (some q) = some p := by
  match a with
  | none => exact ⟨q, rfl⟩
  | some r =>
    simp only [optMin]
    split_ifs <;> exact ⟨_, rfl⟩

/-- The three-way minimum taken inside `dtwGo`: if the third candidate is
present, the minimum is present, is bounded by the third candidate's cost,
and is one of the three candidates. -/
theorem optMin3_spec (a b : Option (ℚ × ℕ)) {c : Option (ℚ × ℕ)} {q : ℚ × ℕ}
    (hc : c = some q) :
    ∃ p, optMin (optMin a b) c = some p ∧ p.1 ≤ q.1 ∧
      (a = some p ∨ b = some p ∨ c = some p) := by
  subst hc
  obtain ⟨p, hp⟩ := optMin_some_right (optMin a b) q
  refine ⟨p, hp, optMin_le_right hp rfl, ?_⟩
  rcases optMin_eq_or hp with h1 | h1
  · rcases optMin_eq_or h1 with h2 | h2
    · exact Or.inl h2
    · exact Or.inr (Or.inl h2)
  · exact Or.inr (Or.inr h1)

theorem dtwGo_nonneg (xs ys : List ℚ) : ∀ p, dtwGo xs ys = some p → 0 ≤ p.1 := by
  induction xs, ys using dtwGo.induct with
  | case1 =>
    intro p h
    simp only [dtwGo, Option.some_inj] at h
    simp [← h]
  | case2 hd tl =>
    intro p h
    simp [dtwGo] at h
  | case3 hd tl =>
    intro p h
    simp [dtwGo] at h
  | case4 a as b bs hnone ih1 ih2 ih3 =>
    intro p h
    rw [dtwGo.eq_4, hnone] at h
    exact Option.noConfusion h
  | case5 a as b bs c0 l0 heq ih1 ih2 ih3 =>
    intro p h
    simp only [dtwGo, heq, Option.some_inj] at h
    have h0 : 0 ≤ c0 := by
      rcases optMin_eq_or heq with h1 | h1
      · rcases optMin_eq_or h1 with h2 | h2
        · exact ih1 (c0, l0) h2
        · exact ih2 (c0, l0) h2
      · exact ih3 (c0, l0) h1
    have habs : (0 : ℚ) ≤ |a - b| := abs_nonneg _
    rw [← h]
    exact add_nonneg habs h0

theorem dtwGo_self : ∀ (xs : List ℚ), xs ≠ [] →
    ∃ l, dtwGo xs xs = some (0, l) ∧ 1 ≤ l := by
  intro xs
  induction xs with
  | nil => intro h; exact absurd rfl h
  | cons x rest ih =>
    intro _
    match rest, ih with
    | [], _ =>
      refine ⟨1, ?_, le_refl 1⟩
      simp [dtwGo, optMin, sub_self]
    | y :: t, ih =>
      obtain ⟨l, hl, _⟩ := ih (by simp)
      obtain ⟨p, hM, hple, hmem⟩ :=
        optMin3_spec (dtwGo (y :: t) (x :: y :: t)) (dtwGo (x :: y :: t) (y :: t))
          (c := dtwGo (y :: t) (y :: t)) (q := ((0 : ℚ), l)) hl
      have hp0 : 0 ≤ p.1 := by
        rcases hmem with h | h | h
        · exact dtwGo_nonneg _ _ p h
        · exact dtwGo_nonneg _ _ p h
        · exact dtwGo_nonneg _ _ p h
      have hz : p.1 = 0 := le_antisymm hple hp0
      obtain ⟨c0, l0⟩ := p
      refine ⟨l0 + 1, ?_, by omega⟩
      rw [dtwGo.eq_4, hM]
      simp only at hz
      simp [hz, sub_self]

/-- `calculate_dtw_distance` of a non-empty, fully finite series against
itself is exactly 0. -/
theorem dtw_self_zero (X : List ℚ) (h : X ≠ []) :
    calculate_dtw_distance (X.map AngleVal.fin) (X.map AngleVal.fin) = 0 := by
  obtain ⟨l, hl, hl1⟩ := dtwGo_self X h
  have hmap : (X.map AngleVal.fin).map AngleVal.toRat = X := by
    rw [List.map_map]
    have : AngleVal.toRat ∘ AngleVal.fin = id := by
      funext q; rfl
    rw [this, List.map_id]
  unfold calculate_dtw_distance
  rw [if_neg (by simp [h]), if_pos (by simp [List.all_map, AngleVal.isFinite]), hmap, hl]
  simp

/-- `calculate_dtw_distance` is never negative. -/
theorem dtw_nonneg (u g : List AngleVal) : 0 ≤ calculate_dtw_distance u g := by
  unfold calculate_dtw_distance
  split_ifs
  · norm_num [PENALTY_DISTANCE]
  · cases hM : dtwGo (u.map AngleVal.toRat) (g.map AngleVal.toRat) with
    | none => norm_num [PENALTY_DISTANCE]
    | some p =>
      obtain ⟨c, l⟩ := p
      have hc : 0 ≤ c := dtwGo_nonneg _ _ (c, l) hM
      simp only
      exact div_nonneg hc (Nat.cast_nonneg l)
  · norm_num [PENALTY_DISTANCE]

/-- C8: the path-normalised time-warped distance of every non-empty,
fully finite series against itself is 0. -/
theorem claim_C8_distance_self_zero (X : List ℚ) (h : X ≠ []) :
    calculate_dtw_distance (X.map AngleVal.fin) (X.map AngleVal.fin) = 0 :=
  dtw_self_zero X h

/-- C8 witness: the series `[3]`. -/
theorem claim_C8_distance_self_zero_witness :
    calculate_dtw_distance [AngleVal.fin 3] [AngleVal.fin 3] = 0 := by
  have := claim_C8_distance_self_zero [3] (by simp)
  simpa using this

theorem heuristic_bounds (rep : List ℚ) :
    0 ≤ (score_rep_heuristic rep).1 ∧ (score_rep_heuristic rep).1 ≤ 100 := by
  match rep with
  | [] => simp [score_rep_heuristic]
  | a :: rest =>
    simp only [score_rep_heuristic]
    omega

theorem blend_with_full_shape_ge (h : ℤ) (h0 : 0 ≤ h) (h100 : h ≤ 100) :
    h ≤ max 0 (min 100 (pyRound ((1/2 : ℚ) * ((100 : ℤ) : ℚ) + (1/2 : ℚ) * (h : ℚ)))) := by
  have hc0 : (0 : ℚ) ≤ (h : ℚ) := by exact_mod_cast h0
  have hc100 : (h : ℚ) ≤ 100 := by exact_mod_cast h100
  have h1 : h ≤ pyRound ((1/2 : ℚ) * ((100 : ℤ) : ℚ) + (1/2 : ℚ) * (h : ℚ)) := by
    refine pyRound_int_le ?_
    push_cast
    linarith
  have h2 : pyRound ((1/2 : ℚ) * ((100 : ℤ) : ℚ) + (1/2 : ℚ) * (h : ℚ)) ≤ 100 := by
    refine pyRound_le_int ?_
    push_cast
    linarith
  omega

theorem accumBest_spec (b : Option (String × ℚ)) (nm : String) (d : ℚ) :
    ∃ q, accumBest b nm d = some q ∧ q.2 ≤ d ∧
      (∀ p, b = some p → q.2 ≤ p.2) ∧ (b = some q ∨ q = (nm, d)) := by
  match b with
  | none => exact ⟨(nm, d), rfl, le_refl _, by simp, Or.inr rfl⟩
  | some (bn, bd) =>
    simp only [accumBest]
    by_cases hd : d < bd
    · rw [if_pos hd]
      refine ⟨(nm, d), rfl, le_refl _, ?_, Or.inr rfl⟩
      intro p hp
      rw [← Option.some_inj.mp hp]
      exact le_of_lt hd
    · rw [if_neg hd]
      refine ⟨(bn, bd), rfl, le_of_not_lt hd, ?_, Or.inl rfl⟩
      intro p hp
      rw [← Option.some_inj.mp hp]

theorem findBest_acc_some (user : List ℚ) (lib : List (String × List AngleVal))
    (p : String × ℚ) :
    ∃ q, findBest user lib (some p) = some q ∧ q.2 ≤ p.2 := by
  induction lib generalizing p with
  | nil => exact ⟨p, rfl, le_refl _⟩
  | cons e rest ih =>
    obtain ⟨nm, r⟩ := e
    by_cases hr : r.isEmpty
    · simp only [findBest, hr, if_true]
      exact ih p
    · simp only [findBest, hr, if_false]
      obtain ⟨q0, hq0, hq0d, hq0p, _⟩ :=
        accumBest_spec (some p) nm (calculate_dtw_distance (user.map AngleVal.fin) r)
      rw [hq0]
      obtain ⟨q, hq, hle⟩ := ih q0
      exact ⟨q, hq, le_trans hle (hq0p p rfl)⟩

theorem findBest_le_entry (user : List ℚ) :
    ∀ (lib : List (String × List AngleVal)) (b : Option (String × ℚ))
      (p : String × List AngleVal), p ∈ lib → p.2 ≠ [] →
      ∃ q, findBest user lib b = some q ∧
        q.2 ≤ calculate_dtw_distance (user.map AngleVal.fin) p.2 := by
  intro lib
  induction lib with
  | nil => intro b p hp; exact absurd hp (List.not_mem_nil p)
  | cons e rest ih =>
    intro b p hp hpne
    obtain ⟨nm, r⟩ := e
    rcases List.mem_cons.mp hp with heq | hmem
    · subst heq
      have hr : ¬ r.isEmpty := by
        cases r with
        | nil => exact absurd rfl hpne
        | cons _ _ => simp
      simp only [findBest, hr, if_false]
      obtain ⟨q0, hq0, hq0d, _, _⟩ :=
        accumBest_spec b nm (calculate_dtw_distance (user.map AngleVal.fin) r)
      rw [hq0]
      obtain ⟨q, hq, hle⟩ := findBest_acc_some user rest q0
      exact ⟨q, hq, le_trans hle hq0d⟩
    · by_cases hr : r.isEmpty
      · simp only [findBest, hr, if_true]
        exact ih b p hmem hpne
      · simp only [findBest, hr, if_false]
        exact ih _ p hmem hpne

theorem findBest_sound (user : List ℚ) :
    ∀ (lib : List (String × List AngleVal)) (b : Option (String × ℚ)) (q : String × ℚ),
      findBest user lib b = some q →
      b = some q ∨ ∃ r, (q.1, r) ∈ lib ∧ r ≠ [] ∧
        q.2 = calculate_dtw_distance (user.map AngleVal.fin) r := by
  intro lib
  induction lib with
  | nil => intro b q h; exact Or.inl h
  | cons e rest ih =>
    intro b q h
    obtain ⟨nm, r⟩ := e
    by_cases hr : r.isEmpty
    · simp only [findBest, hr, if_true] at h
      rcases ih b q h with h1 | ⟨r', hmem, hne, hdist⟩
      · exact Or.inl h1
      · exact Or.inr ⟨r', List.mem_cons_of_mem _ hmem, hne, hdist⟩
    · have hrne : r ≠ [] := by
        cases r with
        | nil => simp at hr
        | cons _ _ => simp
      simp only [findBest, hr, if_false] at h
      obtain ⟨q0, hq0, hq0d, hq0p, hq0or⟩ :=
        accumBest_spec b nm (calculate_dtw_distance (user.map AngleVal.fin) r)
      rw [hq0] at h
      rcases ih _ q h with h1 | ⟨r', hmem, hne, hdist⟩
      · have hqq0 : q0 = q := Option.some_inj.mp h1
        subst hqq0
        rcases hq0or with hb | hnd
        · exact Or.inl hb
        · subst hnd
          exact Or.inr ⟨r, List.mem_cons_self _ _, hrne, rfl⟩
      · exact Or.inr ⟨r', List.mem_cons_of_mem _ hmem, hne, hdist⟩

theorem lookupRef_of_nodup :
    ∀ (lib : List (String × List AngleVal)) (nm : String) (r : List AngleVal),
      (lib.map Prod.fst).Nodup → (nm, r) ∈ lib → lookupRef lib nm = r := by
  intro lib
  induction lib with
  | nil => intro nm r _ hmem; exact absurd hmem (List.not_mem_nil _)
  | cons e rest ih =>
    intro nm r hnd hmem
    obtain ⟨nm', r'⟩ := e
    rw [List.map_cons, List.nodup_cons] at hnd
    rcases List.mem_cons.mp hmem with heq | hmem'
    · have h1 : nm' = nm := (congrArg Prod.fst heq).symm
      have h2 : r' = r := (congrArg Prod.snd heq).symm
      subst h1
      subst h2
      simp [lookupRef, List.find?]
    · have hmm : nm ∈ List.map Prod.fst rest := List.mem_map_of_mem Prod.fst hmem'
      have hne : nm' ≠ nm := fun he => hnd.1 (by rw [he]; exact hmm)
      have hb : (nm' == nm) = false := beq_false_of_ne hne
      simp only [lookupRef, List.find?, hb]
      exact ih nm r hnd.2 hmem'

/-- C9: with the rep itself present as a reference in the library (library
names unique, as Python dict keys are), the blended score is at least the
heuristic-only score: the minimal distance is 0, so the shape component
saturates at 100. -/
theorem claim_C9_self_in_library (X : List ℚ) (lib : List (String × List AngleVal))
    (nm : String) (hX : X ≠ []) (hmem : (nm, X.map AngleVal.fin) ∈ lib)
    (hnd : (lib.map Prod.fst).Nodup) :
    (score_rep_heuristic X).1 ≤ (evaluate_against_library X lib 20).2.2 := by
  have hXfin : X.map AngleVal.fin ≠ [] := by simp [hX]
  have hlib : lib ≠ [] := by rintro rfl; exact absurd hmem (List.not_mem_nil _)
  obtain ⟨hh0, hh100⟩ := heuristic_bounds X
  obtain ⟨q, hq, hqle⟩ := findBest_le_entry X lib none (nm, X.map AngleVal.fin) hmem hXfin
  have hself : calculate_dtw_distance (X.map AngleVal.fin) (X.map AngleVal.fin) = 0 :=
    dtw_self_zero X hX
  rw [hself] at hqle
  rcases findBest_sound X lib none q hq with habs | ⟨r, hrmem, hrne, hrdist⟩
  · exact absurd habs (by simp)
  have hq0 : 0 ≤ q.2 := by rw [hrdist]; exact dtw_nonneg _ _
  have hq2 : q.2 = 0 := le_antisymm hqle hq0
  have hd : calculate_dtw_distance (X.map AngleVal.fin) r = 0 := by
    rw [← hrdist]; exact hq2
  unfold evaluate_against_library
  rw [if_neg (by simp [hX]), if_neg (by simp [hlib])]
  obtain ⟨bn, bd⟩ := q
  rw [hq]
  simp only [finishEval]
  by_cases hbn : bn = "no_reference"
  · rw [if_pos hbn]
  · rw [if_neg hbn]
    have hlook : lookupRef lib bn = r := lookupRef_of_nodup lib bn r hnd hrmem
    simp only [score_rep_blended, hlook, hd]
    have hform : calculate_form_score 0 DTW_MAX_DIST_DEGREES = 100 := by
      norm_num [calculate_form_score, DTW_MAX_DIST_DEGREES]
    rw [hform]
    exact blend_with_full_shape_ge _ hh0 hh100

/-- C9 witness: the rep `[3]` with itself as the sole reference. -/
theorem claim_C9_self_in_library_witness :
    (score_rep_heuristic [3]).1 ≤ (evaluate_against_library [3] [("g", [AngleVal.fin 3])] 20).2.2 := by
  have h := claim_C9_self_in_library [3] [("g", [AngleVal.fin 3])] "g" (by simp)
    (by simp) (by simp)
  exact h

/-- C1: each detection pass returns exactly the candidate slices
`[b_i, b_{i+1})` whose maximum reaches the pass's lockout threshold, where
the boundary list is `0 :: midpoints of consecutive deep valleys ++ [n]`;
the returned slices have positive extent, are ordered by start index and
never overlap (dropped candidates are omitted, not merged), and the value
slices are exactly the retained ranges read off the series. -/
theorem claim_C1_detect_exact_filter (angles : List ℚ) (vdt lma vp : ℚ) (vmd : ℕ) :
    detectRanges angles vdt lma vp vmd
      = (candidateRanges (deepValleys angles vdt vp vmd) angles.length).filter
          (fun se => lma ≤ listMaxQ (sliceOf angles se))
    ∧ repBoundaries (deepValleys angles vdt vp vmd) angles.length
        = 0 :: (midpointsOf (deepValleys angles vdt vp vmd) ++ [angles.length])
    ∧ (∀ se ∈ detectRanges angles vdt lma vp vmd, se.1 < se.2)
    ∧ (detectRanges angles vdt lma vp vmd).Pairwise
        (fun a b : ℕ × ℕ => a.1 < b.1 ∧ a.2 ≤ b.1)
    ∧ detect_reps_by_valleys angles vdt lma vp vmd
        = (detectRanges angles vdt lma vp vmd).map (sliceOf angles) := by
  by_cases hv : findPeaks (angles.map (fun a => -a)) vp vmd = []
  · have hdv : deepValleys angles vdt vp vmd = [] := by simp [deepValleys, hv]
    have hdr : detectRanges angles vdt lma vp vmd = [] := by
      simp [detectRanges, hv]
    refine ⟨?_, rfl, ?_, ?_, rfl⟩
    · simp [hdr, hdv, candidateRanges]
    · simp [hdr]
    · simp [hdr]
  · by_cases hdv : deepValleys angles vdt vp vmd = []
    · have hdr : detectRanges angles vdt lma vp vmd = [] := by
        simp [detectRanges, hv, hdv]
      refine ⟨?_, rfl, ?_, ?_, rfl⟩
      · simp [hdr, hdv, candidateRanges]
      · simp [hdr]
      · simp [hdr]
    · have h1 : detectRanges angles vdt lma vp vmd
          = (candidateRanges (deepValleys angles vdt vp vmd) angles.length).filter
              (fun se => lma ≤ listMaxQ (sliceOf angles se)) := by
        simp [detectRanges, hv, hdv]
      obtain ⟨hdb, hdp⟩ := deepValleys_spec angles vdt vp vmd
      have hbp : (repBoundaries (deepValleys angles vdt vp vmd) angles.length).Pairwise
          (· < ·) :=
        repBoundaries_pairwise _ _ hdv hdp hdb
      obtain ⟨hz1, hz2⟩ := zip_tail_spec _ hbp
      have hcand_lt : ∀ se ∈ candidateRanges (deepValleys angles vdt vp vmd) angles.length,
          se.1 < se.2 :=
        fun se hm => hz1 se (List.take_subset _ _ hm)
      have hcand_pw : (candidateRanges (deepValleys angles vdt vp vmd)
          angles.length).Pairwise (fun a b : ℕ × ℕ => a.2 ≤ b.1) :=
        hz2.sublist (List.take_sublist _ _)
      have hsub : List.Sublist (detectRanges angles vdt lma vp vmd)
          (candidateRanges (deepValleys angles vdt vp vmd) angles.length) := by
        rw [h1]; exact List.filter_sublist _
      refine ⟨h1, rfl, fun se hm => hcand_lt se (hsub.subset hm), ?_, rfl⟩
      have hpw : (detectRanges angles vdt lma vp vmd).Pairwise
          (fun a b : ℕ × ℕ => a.2 ≤ b.1) := hcand_pw.sublist hsub
      refine hpw.imp_of_mem ?_
      intro a b ha hb hab
      exact ⟨lt_of_lt_of_le (hcand_lt a (hsub.subset ha)) hab, hab⟩

/-- C2: `segment_reps` returns the primary pass's result (165°/145°/8°/10)
whenever it is non-empty, runs the fallback pass (175°/120°/4°/6) exactly
when the primary pass yields zero slices, is empty exactly when both
passes yield zero slices, and returns an empty list outright for inputs of
length < 2. -/
theorem claim_C2_segment_two_pass (angles : List ℚ) :
    (angles.length < 2 → segment_reps angles = []) ∧
    (2 ≤ angles.length →
      (detect_reps_by_valleys angles VALLEY_DEPTH_THRESHOLD LOCKOUT_MIN_ANGLE
          VALLEY_PROMINENCE VALLEY_MIN_DISTANCE ≠ [] →
        segment_reps angles = detect_reps_by_valleys angles VALLEY_DEPTH_THRESHOLD
          LOCKOUT_MIN_ANGLE VALLEY_PROMINENCE VALLEY_MIN_DISTANCE) ∧
      (detect_reps_by_valleys angles VALLEY_DEPTH_THRESHOLD LOCKOUT_MIN_ANGLE
          VALLEY_PROMINENCE VALLEY_MIN_DISTANCE = [] →
        segment_reps angles = detect_reps_by_valleys angles
          FALLBACK_VALLEY_DEPTH_THRESHOLD FALLBACK_LOCKOUT_MIN_ANGLE
          FALLBACK_VALLEY_PROMINENCE FALLBACK_VALLEY_MIN_DISTANCE) ∧
      (segment_reps angles = [] ↔
        detect_reps_by_valleys angles VALLEY_DEPTH_THRESHOLD LOCKOUT_MIN_ANGLE
          VALLEY_PROMINENCE VALLEY_MIN_DISTANCE = [] ∧
        detect_reps_by_valleys angles FALLBACK_VALLEY_DEPTH_THRESHOLD
          FALLBACK_LOCKOUT_MIN_ANGLE FALLBACK_VALLEY_PROMINENCE
          FALLBACK_VALLEY_MIN_DISTANCE = [])) := by
  refine ⟨fun h => by simp [segment_reps, h], fun h2 => ?_⟩
  have hn : ¬ angles.length < 2 := not_lt.mpr h2
  by_cases hp : detect_reps_by_valleys angles VALLEY_DEPTH_THRESHOLD LOCKOUT_MIN_ANGLE
      VALLEY_PROMINENCE VALLEY_MIN_DISTANCE = []
  · refine ⟨fun hne => absurd hp hne, fun _ => ?_, ?_⟩
    · simp [segment_reps, hn, hp]
    · simp [segment_reps, hn, hp]
  · refine ⟨fun _ => by simp [segment_reps, hn, hp], fun he => absurd he hp, ?_⟩
    simp [segment_reps, hn, hp]

/-- C2 witness: the length-2 constant series `[0, 0]` (both passes find
no valleys and the overall result is empty). -/
theorem claim_C2_segment_two_pass_witness :
    segment_reps [0, 0] = [] ∧ (2 : ℕ) ≤ ([0, 0] : List ℚ).length := by
  have hp : detect_reps_by_valleys [0, 0] VALLEY_DEPTH_THRESHOLD LOCKOUT_MIN_ANGLE
      VALLEY_PROMINENCE VALLEY_MIN_DISTANCE = [] := by
    norm_num [detect_reps_by_valleys, detectRanges, findPeaks, localMaxima, lmGo,
      selectByPeakDistance, argsortAsc, prominenceOf, deepValleys]
  have hf : detect_reps_by_valleys [0, 0] FALLBACK_VALLEY_DEPTH_THRESHOLD
      FALLBACK_LOCKOUT_MIN_ANGLE FALLBACK_VALLEY_PROMINENCE
      FALLBACK_VALLEY_MIN_DISTANCE = [] := by
    norm_num [detect_reps_by_valleys, detectRanges, findPeaks, localMaxima, lmGo,
      selectByPeakDistance, argsortAsc, prominenceOf, deepValleys]
  have h := ((claim_C2_segment_two_pass [0, 0]).2 (by simp)).2.1 hp
  exact ⟨h.trans hf, by simp⟩

/-- C10: `evaluate_against_library` returns an identical triple for any
two values of its `max_acceptable_distance` parameter — in particular for
the 1.0 the API server passes and the 20° module default the blend
actually uses. -/
theorem claim_C10_parameter_never_used (user : List ℚ)
    (lib : List (String × List AngleVal)) (m₁ m₂ : ℚ) :
    evaluate_against_library user lib m₁ = evaluate_against_library user lib m₂ ∧
    evaluate_against_library user lib DTW_MAX_ACCEPTABLE_DISTANCE
      = evaluate_against_library user lib DTW_MAX_DIST_DEGREES :=
  ⟨rfl, rfl⟩
